import Mathlib

/-!
Verification of the consumption-dashboard view-model logic
(`src/public/src/src/App.js`).

The development shallowly embeds the data model and the pure logic of the
application: the daily trailing-window aggregate (`womackChartData`), the
weekly latest-per-line comparison (`bodymakerChartData`), the two form
submission handlers, and the auth-bootstrap callback.  Calendar dates are
embedded as year/month/day triples ordered lexicographically, which is the
order `new Date(isoString)` induces on valid ISO dates; JS numbers entered
in the forms are embedded as integers; a blank form field is `Option.none`.
-/

/-- A calendar date, as parsed from an ISO `YYYY-MM-DD` string. -/
structure Date where
  year : Nat
  month : Nat
  day : Nat
deriving DecidableEq, Repr

/-- `new Date(a) < new Date(b)` for valid ISO dates: lexicographic on
(year, month, day). -/
def Date.ltb (a b : Date) : Bool :=
  decide (a.year < b.year) ||
    (decide (a.year = b.year) &&
      (decide (a.month < b.month) ||
        (decide (a.month = b.month) && decide (a.day < b.day))))

theorem Date.ltb_iff (a b : Date) :
    Date.ltb a b = true ↔
      (a.year < b.year ∨ (a.year = b.year ∧
        (a.month < b.month ∨ (a.month = b.month ∧ a.day < b.day)))) := by
  simp [Date.ltb]

theorem Date.ltb_irrefl (a : Date) : Date.ltb a a = false := by
  simp [Date.ltb]

theorem Date.ltb_asymm {a b : Date} (h : Date.ltb a b = true) :
    Date.ltb b a = false := by
  rw [Date.ltb_iff] at h
  cases hba : Date.ltb b a with
  | false => rfl
  | true => rw [Date.ltb_iff] at hba; omega

theorem Date.ltb_trans {a b c : Date} (h₁ : Date.ltb a b = true)
    (h₂ : Date.ltb b c = true) : Date.ltb a c = true := by
  rw [Date.ltb_iff] at h₁ h₂ ⊢
  omega

theorem Date.eq_of_not_ltb {a b : Date} (h₁ : Date.ltb a b = false)
    (h₂ : Date.ltb b a = false) : a = b := by
  rw [← Bool.not_eq_true, Date.ltb_iff] at h₁ h₂
  cases a; cases b
  simp only [Date.mk.injEq]
  simp only at h₁ h₂
  omega

/-- `a < b ≤ c → a < c` (the middle bound written as `ltb c b = false`). -/
theorem Date.ltb_of_ltb_of_not_ltb {a b c : Date} (h₁ : Date.ltb a b = true)
    (h₂ : Date.ltb c b = false) : Date.ltb a c = true := by
  rw [Date.ltb_iff] at h₁ ⊢
  rw [← Bool.not_eq_true, Date.ltb_iff] at h₂
  omega

/-- `a ≤ b < c → a < c` (the first bound written as `ltb b a = false`). -/
theorem Date.ltb_of_not_ltb_of_ltb {a b c : Date} (h₁ : Date.ltb b a = false)
    (h₂ : Date.ltb b c = true) : Date.ltb a c = true := by
  rw [Date.ltb_iff] at h₂ ⊢
  rw [← Bool.not_eq_true, Date.ltb_iff] at h₁
  omega

/-!
## Generic comparator-based insertion sort

`Array.prototype.sort` with a numeric comparator is a stable sort in the
order the comparator induces.  Both chart transforms and both history
tables sort copies of their snapshots this way; we embed the sort as a
stable insertion sort parametrised by the strict comparator `lt`.
-/

/-- Insert `a` into `l`, keeping every element strictly below `a` in front
(`a` lands before the first element that is not strictly below it, which is
where a stable sort puts it). -/
def insertLt {α : Type} (lt : α → α → Bool) (a : α) : List α → List α
  | [] => [a]
  | x :: xs => if lt x a then x :: insertLt lt a xs else a :: x :: xs

/-- Stable sort by the strict comparator `lt`. -/
def sortLt {α : Type} (lt : α → α → Bool) (l : List α) : List α :=
  l.foldr (insertLt lt) []

theorem insertLt_perm {α : Type} (lt : α → α → Bool) (a : α) (l : List α) :
    List.Perm (insertLt lt a l) (a :: l) := by
  induction l with
  | nil => simp [insertLt]
  | cons x xs ih =>
    simp only [insertLt]
    by_cases h : lt x a = true
    · simp only [h, if_pos]
      exact (ih.cons x).trans (List.Perm.swap a x xs)
    · simp [h]

theorem sortLt_perm {α : Type} (lt : α → α → Bool) (l : List α) :
    List.Perm (sortLt lt l) l := by
  induction l with
  | nil => simp [sortLt]
  | cons x xs ih =>
    exact (insertLt_perm lt x (sortLt lt xs)).trans (ih.cons x)

theorem mem_sortLt {α : Type} (lt : α → α → Bool) (l : List α) (a : α) :
    a ∈ sortLt lt l ↔ a ∈ l :=
  (sortLt_perm lt l).mem_iff

/-- Sortedness after insertion, for a comparator that is asymmetric and
whose negation composes with it transitively. -/
theorem insertLt_pairwise {α : Type} (lt : α → α → Bool)
    (hasymm : ∀ a b, lt a b = true → lt b a = false)
    (htrans : ∀ a b c, lt b a = false → lt b c = true → lt a c = true)
    (a : α) (l : List α)
    (hl : l.Pairwise (fun x y => lt y x = false)) :
    (insertLt lt a l).Pairwise (fun x y => lt y x = false) := by
  induction l with
  | nil => simp [insertLt]
  | cons x xs ih =>
    rcases List.pairwise_cons.mp hl with ⟨hx, hxs⟩
    simp only [insertLt]
    by_cases h : lt x a = true
    · rw [if_pos h]
      refine List.pairwise_cons.mpr ⟨?_, ih hxs⟩
      intro y hy
      rcases List.mem_cons.mp ((insertLt_perm lt a xs).mem_iff.mp hy) with rfl | hy
      · exact hasymm _ _ h
      · exact hx y hy
    · rw [if_neg h]
      rw [Bool.not_eq_true] at h
      refine List.pairwise_cons.mpr ⟨?_, hl⟩
      intro y hy
      rcases List.mem_cons.mp hy with rfl | hy
      · exact h
      · cases hya : lt y a with
        | false => rfl
        | true => exact absurd (htrans x y a (hx y hy) hya) (by simp [h])

theorem sortLt_pairwise {α : Type} (lt : α → α → Bool)
    (hasymm : ∀ a b, lt a b = true → lt b a = false)
    (htrans : ∀ a b c, lt b a = false → lt b c = true → lt a c = true)
    (l : List α) :
    (sortLt lt l).Pairwise (fun x y => lt y x = false) := by
  induction l with
  | nil => simp [sortLt]
  | cons x xs ih => exact insertLt_pairwise lt hasymm htrans x _ ih

/-!
## Data model

`DailyReading` and `WeeklyReading` as stored in the two collections.  The
store-assigned `id` and `createdAt` fields are not read by any of the logic
modelled here (the `id` is only used as a rendering key) and are omitted.
-/

/-- A Womack daily reading (`womackEntries` document). -/
structure DailyReading where
  date : Date
  line : Nat
  waterConsumption : Int
  oilConsumptionTotal : Int
  oilConsumptionPartial : Int
deriving DecidableEq, Repr

/-- One per-machine entry of a weekly reading. -/
structure Reading where
  machineId : Nat
  consumption : Int
deriving DecidableEq, Repr

/-- A Bodymaker weekly reading (`bodymakerEntries` document). -/
structure WeeklyReading where
  weekStartDate : Date
  line : Nat
  readings : List Reading
deriving DecidableEq, Repr

/-!
## Daily trailing-window aggregate (`womackChartData`)

The grouping key is
`new Date(d.date).toLocaleDateString('es-ES', { day: 'numeric', month: 'short' })`,
a label such as `"5 ene"`: it is determined by (and determines) the pair
(day of month, month) and omits the year, so we embed it as that pair.
-/

/-- The `es-ES` day-plus-short-month label, embedded as (day, month). -/
def dateKey (d : Date) : Nat × Nat := (d.day, d.month)

/-- One row of the Womack chart: the accumulator object created per label. -/
structure WomackRow where
  name : Nat × Nat
  aguaL1 : Int
  aguaL2 : Int
  aceiteL1 : Int
  aceiteL2 : Int
deriving DecidableEq, Repr

/-- The freshly created accumulator row for a label. -/
def emptyRow (k : Nat × Nat) : WomackRow :=
  { name := k, aguaL1 := 0, aguaL2 := 0, aceiteL1 := 0, aceiteL2 := 0 }

/-- The per-record accumulation into a row: line 1 adds to the `L1` sums,
line 2 to the `L2` sums, any other line leaves the row unchanged. -/
def addReading (row : WomackRow) (d : DailyReading) : WomackRow :=
  if d.line = 1 then
    { row with aguaL1 := row.aguaL1 + d.waterConsumption,
               aceiteL1 := row.aceiteL1 + d.oilConsumptionTotal }
  else if d.line = 2 then
    { row with aguaL2 := row.aguaL2 + d.waterConsumption,
               aceiteL2 := row.aceiteL2 + d.oilConsumptionTotal }
  else row

/-- Processing one record against the accumulator object.  A plain JS object
with non-index string keys enumerates its values in key insertion order, so
the object is embedded as a list of rows in insertion order: an existing
label's row is updated in place, a new label's row is appended. -/
def insertReading : List WomackRow → DailyReading → List WomackRow
  | [], d => [addReading (emptyRow (dateKey d.date)) d]
  | r :: rs, d =>
    if r.name = dateKey d.date then addReading r d :: rs
    else r :: insertReading rs d

/-- `slice(-7)`: the last `n` elements (the whole list when shorter). -/
def lastN {α : Type} (n : Nat) (l : List α) : List α :=
  l.drop (l.length - n)

/-- The daily chart transform: sort a copy of the snapshot ascending by
date, accumulate per-label rows in insertion order, keep the last 7. -/
def womackChartData (womackData : List DailyReading) : List WomackRow :=
  let sortedData := sortLt (fun a b => Date.ltb a.date b.date) womackData
  lastN 7 (sortedData.foldl insertReading [])

/-!
## First-occurrence deduplication

Key order in the accumulator object, and `[...new Set(xs)]` in the weekly
transform, are both "first occurrence wins" deduplication.
-/

/-- Append `k` unless already present. -/
def insKey {α : Type} [DecidableEq α] (ks : List α) (k : α) : List α :=
  if k ∈ ks then ks else ks ++ [k]

/-- Deduplicate keeping first occurrences, in order of first occurrence. -/
def firstDedup {α : Type} [DecidableEq α] (l : List α) : List α :=
  l.foldl insKey []

theorem mem_insKey {α : Type} [DecidableEq α] (ks : List α) (k a : α) :
    a ∈ insKey ks k ↔ a ∈ ks ∨ a = k := by
  unfold insKey
  by_cases h : k ∈ ks
  · rw [if_pos h]
    constructor
    · exact Or.inl
    · rintro (ha | rfl)
      · exact ha
      · exact h
  · rw [if_neg h]
    simp

theorem mem_foldl_insKey {α : Type} [DecidableEq α] (l ks : List α) (a : α) :
    a ∈ l.foldl insKey ks ↔ a ∈ ks ∨ a ∈ l := by
  induction l generalizing ks with
  | nil => simp
  | cons k t ih =>
    rw [List.foldl_cons, ih, mem_insKey]
    simp only [List.mem_cons]
    tauto

theorem mem_firstDedup {α : Type} [DecidableEq α] (l : List α) (a : α) :
    a ∈ firstDedup l ↔ a ∈ l := by
  unfold firstDedup
  rw [mem_foldl_insKey]
  simp

theorem nodup_insKey {α : Type} [DecidableEq α] (ks : List α) (k : α)
    (h : ks.Nodup) : (insKey ks k).Nodup := by
  unfold insKey
  by_cases hk : k ∈ ks
  · rw [if_pos hk]; exact h
  · rw [if_neg hk]
    simpa using List.Nodup.append h (List.nodup_singleton k) (by simpa using hk)

theorem nodup_foldl_insKey {α : Type} [DecidableEq α] (l : List α) :
    ∀ ks : List α, ks.Nodup → (l.foldl insKey ks).Nodup := by
  induction l with
  | nil => intro ks h; simpa using h
  | cons k t ih =>
    intro ks h
    rw [List.foldl_cons]
    exact ih _ (nodup_insKey ks k h)

theorem nodup_firstDedup {α : Type} [DecidableEq α] (l : List α) :
    (firstDedup l).Nodup :=
  nodup_foldl_insKey l [] List.nodup_nil

/-- The fold only ever appends new elements at the end, and the appended
tail is a sublist of the processed list. -/
theorem foldl_insKey_append {α : Type} [DecidableEq α] (l : List α) :
    ∀ ks : List α, ∃ t, l.foldl insKey ks = ks ++ t ∧ t.Sublist l := by
  induction l with
  | nil => intro ks; exact ⟨[], by simp⟩
  | cons k t ih =>
    intro ks
    rw [List.foldl_cons]
    unfold insKey
    by_cases hk : k ∈ ks
    · rw [if_pos hk]
      obtain ⟨u, hu, hsub⟩ := ih ks
      exact ⟨u, hu, hsub.cons k⟩
    · rw [if_neg hk]
      obtain ⟨u, hu, hsub⟩ := ih (ks ++ [k])
      exact ⟨k :: u, by simpa using hu, hsub.cons₂ k⟩

/-- `firstDedup` is a sublist of its input. -/
theorem firstDedup_sublist {α : Type} [DecidableEq α] (l : List α) :
    (firstDedup l).Sublist l := by
  obtain ⟨t, ht, hsub⟩ := foldl_insKey_append l []
  unfold firstDedup
  rw [ht]
  simpa using hsub

theorem addReading_name (row : WomackRow) (d : DailyReading) :
    (addReading row d).name = row.name := by
  unfold addReading
  split
  · rfl
  · split <;> rfl

theorem insertReading_names (acc : List WomackRow) (d : DailyReading) :
    (insertReading acc d).map (fun r => r.name) =
      insKey (acc.map (fun r => r.name)) (dateKey d.date) := by
  induction acc with
  | nil => simp [insertReading, insKey, addReading_name, emptyRow]
  | cons r rs ih =>
    simp only [insertReading]
    by_cases h : r.name = dateKey d.date
    · rw [if_pos h]
      have hk : dateKey d.date ∈ (r :: rs).map (fun r => r.name) := by
        simp [← h]
      simp [insKey, hk, addReading_name, h]
    · rw [if_neg h]
      simp only [List.map_cons, ih, insKey]
      have hne : ¬ dateKey d.date = r.name := fun hc => h hc.symm
      by_cases hm : dateKey d.date ∈ rs.map (fun r => r.name)
      · simp [hm, hne]
      · simp [hm, hne]

theorem foldl_insertReading_names (l : List DailyReading) :
    ∀ acc : List WomackRow,
      (l.foldl insertReading acc).map (fun r => r.name) =
        (l.map (fun d => dateKey d.date)).foldl insKey
          (acc.map (fun r => r.name)) := by
  induction l with
  | nil => intro acc; rfl
  | cons d t ih =>
    intro acc
    rw [List.foldl_cons, ih, List.map_cons, List.foldl_cons,
      insertReading_names]

/-- First-occurrence deduplication commutes with a map that is injective on
the elements in play. -/
theorem foldl_insKey_map {α β : Type} [DecidableEq α] [DecidableEq β]
    (f : α → β) (l : List α) :
    ∀ ks : List α,
      (∀ a ∈ l ++ ks, ∀ b ∈ l ++ ks, f a = f b → a = b) →
      (l.map f).foldl insKey (ks.map f) = (l.foldl insKey ks).map f := by
  induction l with
  | nil => intro ks _; rfl
  | cons k t ih =>
    intro ks hinj
    rw [List.map_cons, List.foldl_cons, List.foldl_cons]
    have hmem : f k ∈ ks.map f ↔ k ∈ ks := by
      constructor
      · intro hf
        obtain ⟨b, hb, hfb⟩ := List.mem_map.mp hf
        have : b = k :=
          hinj b (by simp [hb]) k (by simp) hfb
        rwa [← this]
      · intro hk; exact List.mem_map.mpr ⟨k, hk, rfl⟩
    unfold insKey
    by_cases hk : k ∈ ks
    · rw [if_pos hk, if_pos (hmem.mpr hk)]
      refine ih ks ?_
      intro a ha b hb
      exact hinj a (by simp only [List.mem_append, List.mem_cons] at ha ⊢; tauto)
        b (by simp only [List.mem_append, List.mem_cons] at hb ⊢; tauto)
    · rw [if_neg hk, if_neg (fun hc => hk (hmem.mp hc))]
      rw [show ks.map f ++ [f k] = (ks ++ [k]).map f by simp]
      refine ih (ks ++ [k]) ?_
      intro a ha b hb
      exact hinj a
        (by simp only [List.mem_append, List.mem_cons, List.mem_singleton] at ha ⊢; tauto)
        b (by simp only [List.mem_append, List.mem_cons, List.mem_singleton] at hb ⊢; tauto)

theorem firstDedup_map {α β : Type} [DecidableEq α] [DecidableEq β]
    (f : α → β) (l : List α)
    (hinj : ∀ a ∈ l, ∀ b ∈ l, f a = f b → a = b) :
    firstDedup (l.map f) = (firstDedup l).map f := by
  unfold firstDedup
  rw [show ([] : List β) = ([] : List α).map f from rfl]
  exact foldl_insKey_map f l []
    (fun a ha b hb => hinj a (by simpa using ha) b (by simpa using hb))

/-- Two strictly sorted lists with the same members are equal. -/
theorem eq_of_pairwise_lt_of_mem_iff {α : Type} (lt : α → α → Bool)
    (hasymm : ∀ a b, lt a b = true → lt b a = false) :
    ∀ l₁ l₂ : List α, l₁.Pairwise (fun a b => lt a b = true) →
      l₂.Pairwise (fun a b => lt a b = true) →
      (∀ a, a ∈ l₁ ↔ a ∈ l₂) → l₁ = l₂ := by
  have hirr : ∀ a, lt a a = true → False := by
    intro a h
    have := hasymm a a h
    rw [this] at h
    exact Bool.noConfusion h
  intro l₁
  induction l₁ with
  | nil =>
    intro l₂ _ _ hmem
    cases l₂ with
    | nil => rfl
    | cons y t₂ => exact absurd ((hmem y).mpr (by simp)) (by simp)
  | cons x t₁ ih =>
    intro l₂ h₁ h₂ hmem
    cases l₂ with
    | nil => exact absurd ((hmem x).mp (by simp)) (by simp)
    | cons y t₂ =>
      rcases List.pairwise_cons.mp h₁ with ⟨hx₁, ht₁⟩
      rcases List.pairwise_cons.mp h₂ with ⟨hy₂, ht₂⟩
      have hxy : x = y := by
        rcases List.mem_cons.mp ((hmem x).mp (by simp)) with h | hxt₂
        · exact h
        · rcases List.mem_cons.mp ((hmem y).mpr (by simp)) with h | hyt₁
          · exact h.symm
          · exact absurd (hx₁ y hyt₁) (by simp [hasymm y x (hy₂ x hxt₂)])
      subst hxy
      have htails : ∀ a, a ∈ t₁ ↔ a ∈ t₂ := by
        intro a
        constructor
        · intro ha
          rcases List.mem_cons.mp ((hmem a).mp (by simp [ha])) with rfl | h
          · exact absurd (hx₁ a ha) (fun hc => hirr a hc)
          · exact h
        · intro ha
          rcases List.mem_cons.mp ((hmem a).mpr (by simp [ha])) with rfl | h
          · exact absurd (hy₂ a ha) (fun hc => hirr a hc)
          · exact h
      rw [ih t₂ ht₁ ht₂ htails]

theorem lastN_map {α β : Type} (f : α → β) (n : Nat) (l : List α) :
    (lastN n l).map f = lastN n (l.map f) := by
  simp [lastN]

theorem lastN_length {α : Type} (n : Nat) (l : List α) :
    (lastN n l).length = min n l.length := by
  simp [lastN]
  omega

/-- Non-strict sortedness together with distinctness gives strict
sortedness of a date list. -/
theorem pairwise_ltb_of_le_nodup (l : List Date)
    (hle : l.Pairwise (fun a b => Date.ltb b a = false)) (hnd : l.Nodup) :
    l.Pairwise (fun a b => Date.ltb a b = true) := by
  induction l with
  | nil => exact List.Pairwise.nil
  | cons x t ih =>
    rcases List.pairwise_cons.mp hle with ⟨hx, ht⟩
    rcases List.nodup_cons.mp hnd with ⟨hxm, hnd'⟩
    refine List.pairwise_cons.mpr ⟨?_, ih ht hnd'⟩
    intro y hy
    cases hlt : Date.ltb x y with
    | true => rfl
    | false =>
      exact absurd (Date.eq_of_not_ltb hlt (hx y hy))
        (fun hc => hxm (by rw [hc]; exact hy))

/-- The distinct dates present in the snapshot, in ascending order. -/
def distinctDatesSorted (data : List DailyReading) : List Date :=
  sortLt Date.ltb (firstDedup (data.map (fun d => d.date)))

/-- When the day-plus-month label is injective on the snapshot's dates, the
chart's row labels are exactly the labels of the last 7 distinct dates. -/
theorem womackChartData_names (data : List DailyReading)
    (hinj : ∀ a ∈ data.map (fun d => d.date), ∀ b ∈ data.map (fun d => d.date),
      dateKey a = dateKey b → a = b) :
    (womackChartData data).map (fun r => r.name) =
      (lastN 7 (distinctDatesSorted data)).map dateKey := by
  have hperm : List.Perm
      (sortLt (fun a b : DailyReading => Date.ltb a.date b.date) data) data :=
    sortLt_perm _ _
  set s := sortLt (fun a b : DailyReading => Date.ltb a.date b.date) data with hs
  have hmemdates : ∀ x, x ∈ s.map (fun d => d.date) ↔ x ∈ data.map (fun d => d.date) :=
    fun x => (hperm.map (fun d => d.date)).mem_iff
  have hinj' : ∀ a ∈ s.map (fun d => d.date), ∀ b ∈ s.map (fun d => d.date),
      dateKey a = dateKey b → a = b := by
    intro a ha b hb
    exact hinj a ((hmemdates a).mp ha) b ((hmemdates b).mp hb)
  have hsorted : (s.map (fun d => d.date)).Pairwise
      (fun a b => Date.ltb b a = false) := by
    rw [List.pairwise_map]
    exact sortLt_pairwise (fun a b : DailyReading => Date.ltb a.date b.date)
      (fun a b h => Date.ltb_asymm h)
      (fun a b c h1 h2 => Date.ltb_of_not_ltb_of_ltb h1 h2) data
  have hKsorted : (firstDedup (s.map (fun d => d.date))).Pairwise
      (fun a b => Date.ltb a b = true) :=
    pairwise_ltb_of_le_nodup _
      (List.Pairwise.sublist (firstDedup_sublist _) hsorted)
      (nodup_firstDedup _)
  have hDsorted : (distinctDatesSorted data).Pairwise
      (fun a b => Date.ltb a b = true) := by
    unfold distinctDatesSorted
    refine pairwise_ltb_of_le_nodup _ ?_ ?_
    · exact sortLt_pairwise Date.ltb (fun a b h => Date.ltb_asymm h)
        (fun a b c h1 h2 => Date.ltb_of_not_ltb_of_ltb h1 h2) _
    · exact (sortLt_perm _ _).nodup_iff.mpr (nodup_firstDedup _)
  have hKD : firstDedup (s.map (fun d => d.date)) = distinctDatesSorted data := by
    refine eq_of_pairwise_lt_of_mem_iff Date.ltb (fun a b h => Date.ltb_asymm h)
      _ _ hKsorted hDsorted ?_
    intro a
    rw [mem_firstDedup, hmemdates a]
    unfold distinctDatesSorted
    rw [mem_sortLt, mem_firstDedup]
  have hrows : (s.foldl insertReading []).map (fun r => r.name)
      = (distinctDatesSorted data).map dateKey := by
    have h1 := foldl_insertReading_names s []
    simp only [List.map_nil] at h1
    have h2 : s.map (fun d => dateKey d.date)
        = (s.map (fun d => d.date)).map dateKey := by
      rw [List.map_map]; rfl
    rw [h1, h2]
    have h3 := firstDedup_map dateKey (s.map (fun d => d.date)) hinj'
    show firstDedup ((s.map (fun d => d.date)).map dateKey) = _
    rw [h3, hKD]
  show (lastN 7 (s.foldl insertReading [])).map (fun r => r.name) = _
  rw [lastN_map, hrows, ← lastN_map]

/-- C1 (amended): for every snapshot of `DailyReading` records whose dates
span more than 7 distinct calendar dates, and whose distinct dates carry
pairwise distinct day-plus-month labels, `womackChartData` has exactly 7
rows, labelled by the 7 chronologically latest distinct dates in ascending
date order. -/
theorem womackChartData_window (data : List DailyReading)
    (hinj : ∀ a ∈ data.map (fun d => d.date), ∀ b ∈ data.map (fun d => d.date),
      dateKey a = dateKey b → a = b)
    (h7 : 7 < (distinctDatesSorted data).length) :
    (womackChartData data).length = 7 ∧
    (womackChartData data).map (fun r => r.name) =
      (lastN 7 (distinctDatesSorted data)).map dateKey := by
  have hnames := womackChartData_names data hinj
  refine ⟨?_, hnames⟩
  have hlen := congrArg List.length hnames
  rw [List.length_map, List.length_map, lastN_length] at hlen
  omega

/-- A snapshot spanning 8 distinct calendar dates in which `2024-01-05` and
`2025-01-05` share the day-plus-month label "5 ene". -/
def womackCexData : List DailyReading :=
  [⟨⟨2024, 1, 5⟩, 1, 10, 4, 2⟩,
   ⟨⟨2025, 1, 1⟩, 1, 1, 1, 1⟩,
   ⟨⟨2025, 1, 2⟩, 1, 1, 1, 1⟩,
   ⟨⟨2025, 1, 3⟩, 1, 1, 1, 1⟩,
   ⟨⟨2025, 1, 4⟩, 1, 1, 1, 1⟩,
   ⟨⟨2025, 1, 5⟩, 1, 1, 1, 1⟩,
   ⟨⟨2025, 1, 6⟩, 1, 1, 1, 1⟩,
   ⟨⟨2025, 1, 7⟩, 1, 1, 1, 1⟩]

/-- C1 counterexample: on `womackCexData`, whose dates span 8 distinct
calendar dates, the chart's rows are not the labels of the 7 latest
distinct dates in ascending order (the merged "5 ene" row sits first, and
there is no row for `2024-01-05` among the dropped dates). -/
theorem womackChartData_window_cex :
    7 < (distinctDatesSorted womackCexData).length ∧
    ¬ ((womackChartData womackCexData).map (fun r => r.name) =
        (lastN 7 (distinctDatesSorted womackCexData)).map dateKey) := by
  decide

/-- A snapshot of 8 records on 8 distinct same-year dates. -/
def womackWitnessData : List DailyReading :=
  [⟨⟨2025, 3, 1⟩, 1, 1, 1, 1⟩,
   ⟨⟨2025, 3, 2⟩, 2, 2, 2, 2⟩,
   ⟨⟨2025, 3, 3⟩, 1, 3, 3, 3⟩,
   ⟨⟨2025, 3, 4⟩, 2, 4, 4, 4⟩,
   ⟨⟨2025, 3, 5⟩, 1, 5, 5, 5⟩,
   ⟨⟨2025, 3, 6⟩, 2, 6, 6, 6⟩,
   ⟨⟨2025, 3, 7⟩, 1, 7, 7, 7⟩,
   ⟨⟨2025, 3, 8⟩, 2, 8, 8, 8⟩]

/-- C1 witness: the amended window theorem applied to a concrete snapshot
of 8 distinct same-year dates. -/
theorem womackChartData_window_witness :
    (womackChartData womackWitnessData).length = 7 ∧
    (womackChartData womackWitnessData).map (fun r => r.name) =
      (lastN 7 (distinctDatesSorted womackWitnessData)).map dateKey :=
  womackChartData_window womackWitnessData (by decide) (by decide)

/-- The accumulator row stored for label `k` (a fresh row when absent). -/
def rowFor (rows : List WomackRow) (k : Nat × Nat) : WomackRow :=
  (rows.find? (fun r => decide (r.name = k))).getD (emptyRow k)

theorem rowFor_insertReading (acc : List WomackRow) (d : DailyReading)
    (k : Nat × Nat) :
    rowFor (insertReading acc d) k =
      if dateKey d.date = k then addReading (rowFor acc k) d
      else rowFor acc k := by
  induction acc with
  | nil =>
    by_cases h : dateKey d.date = k
    · rw [if_pos h]
      unfold rowFor insertReading
      rw [List.find?_cons_of_pos _ (by simp [addReading_name, emptyRow, h]),
        List.find?_nil]
      simp [← h]
    · rw [if_neg h]
      unfold rowFor insertReading
      rw [List.find?_cons_of_neg _ (by simp [addReading_name, emptyRow, h]),
        List.find?_nil]
  | cons r rs ih =>
    simp only [insertReading]
    by_cases hr : r.name = dateKey d.date
    · rw [if_pos hr]
      by_cases hk : dateKey d.date = k
      · rw [if_pos hk]
        unfold rowFor
        rw [List.find?_cons_of_pos _ (by simp [addReading_name, hr, hk]),
          List.find?_cons_of_pos _ (by simp [hr, hk])]
        rfl
      · rw [if_neg hk]
        unfold rowFor
        rw [List.find?_cons_of_neg _ (by simp [addReading_name, hr, hk]),
          List.find?_cons_of_neg _ (by simp [hr, hk])]
    · rw [if_neg hr]
      by_cases hrk : r.name = k
      · have hk : ¬ dateKey d.date = k := by
          intro hc; exact hr (by rw [hc, hrk])
        rw [if_neg hk]
        unfold rowFor
        rw [List.find?_cons_of_pos _ (by simp [hrk]),
          List.find?_cons_of_pos _ (by simp [hrk])]
      · unfold rowFor
        rw [List.find?_cons_of_neg _ (by simp [hrk]),
          List.find?_cons_of_neg _ (by simp [hrk])]
        exact ih

theorem rowFor_foldl (l : List DailyReading) :
    ∀ (acc : List WomackRow) (k : Nat × Nat),
      rowFor (l.foldl insertReading acc) k =
        (l.filter (fun d => decide (dateKey d.date = k))).foldl addReading
          (rowFor acc k) := by
  induction l with
  | nil => intro acc k; rfl
  | cons d t ih =>
    intro acc k
    rw [List.foldl_cons, ih, rowFor_insertReading]
    by_cases h : dateKey d.date = k
    · rw [if_pos h, List.filter_cons_of_pos (by simp [h]), List.foldl_cons]
    · rw [if_neg h, List.filter_cons_of_neg (by simp [h])]

theorem foldl_addReading_name (recs : List DailyReading) :
    ∀ row : WomackRow, (recs.foldl addReading row).name = row.name := by
  induction recs with
  | nil => intro row; rfl
  | cons d t ih => intro row; rw [List.foldl_cons, ih, addReading_name]

theorem foldl_addReading_aguaL1 (recs : List DailyReading) :
    ∀ row : WomackRow, (recs.foldl addReading row).aguaL1 =
      row.aguaL1 + ((recs.filter (fun d => decide (d.line = 1))).map
        (fun d => d.waterConsumption)).sum := by
  induction recs with
  | nil => intro row; simp
  | cons d t ih =>
    intro row
    rw [List.foldl_cons, ih (addReading row d)]
    by_cases h : d.line = 1
    · rw [List.filter_cons_of_pos (by simp [h])]
      have hadd : (addReading row d).aguaL1 = row.aguaL1 + d.waterConsumption := by
        simp [addReading, h]
      rw [hadd, List.map_cons, List.sum_cons]
      ring
    · rw [List.filter_cons_of_neg (by simp [h])]
      have hadd : (addReading row d).aguaL1 = row.aguaL1 := by
        by_cases h2 : d.line = 2 <;> simp [addReading, h, h2]
      rw [hadd]

theorem foldl_addReading_aguaL2 (recs : List DailyReading) :
    ∀ row : WomackRow, (recs.foldl addReading row).aguaL2 =
      row.aguaL2 + ((recs.filter (fun d => decide (d.line = 2))).map
        (fun d => d.waterConsumption)).sum := by
  induction recs with
  | nil => intro row; simp
  | cons d t ih =>
    intro row
    rw [List.foldl_cons, ih (addReading row d)]
    by_cases h : d.line = 2
    · rw [List.filter_cons_of_pos (by simp [h])]
      have hadd : (addReading row d).aguaL2 = row.aguaL2 + d.waterConsumption := by
        have h1 : ¬ d.line = 1 := by omega
        simp [addReading, h, h1]
      rw [hadd, List.map_cons, List.sum_cons]
      ring
    · rw [List.filter_cons_of_neg (by simp [h])]
      have hadd : (addReading row d).aguaL2 = row.aguaL2 := by
        by_cases h1 : d.line = 1 <;> simp [addReading, h, h1]
      rw [hadd]

theorem foldl_addReading_aceiteL1 (recs : List DailyReading) :
    ∀ row : WomackRow, (recs.foldl addReading row).aceiteL1 =
      row.aceiteL1 + ((recs.filter (fun d => decide (d.line = 1))).map
        (fun d => d.oilConsumptionTotal)).sum := by
  induction recs with
  | nil => intro row; simp
  | cons d t ih =>
    intro row
    rw [List.foldl_cons, ih (addReading row d)]
    by_cases h : d.line = 1
    · rw [List.filter_cons_of_pos (by simp [h])]
      have hadd : (addReading row d).aceiteL1 = row.aceiteL1 + d.oilConsumptionTotal := by
        simp [addReading, h]
      rw [hadd, List.map_cons, List.sum_cons]
      ring
    · rw [List.filter_cons_of_neg (by simp [h])]
      have hadd : (addReading row d).aceiteL1 = row.aceiteL1 := by
        by_cases h2 : d.line = 2 <;> simp [addReading, h, h2]
      rw [hadd]

theorem foldl_addReading_aceiteL2 (recs : List DailyReading) :
    ∀ row : WomackRow, (recs.foldl addReading row).aceiteL2 =
      row.aceiteL2 + ((recs.filter (fun d => decide (d.line = 2))).map
        (fun d => d.oilConsumptionTotal)).sum := by
  induction recs with
  | nil => intro row; simp
  | cons d t ih =>
    intro row
    rw [List.foldl_cons, ih (addReading row d)]
    by_cases h : d.line = 2
    · rw [List.filter_cons_of_pos (by simp [h])]
      have hadd : (addReading row d).aceiteL2 = row.aceiteL2 + d.oilConsumptionTotal := by
        have h1 : ¬ d.line = 1 := by omega
        simp [addReading, h, h1]
      rw [hadd, List.map_cons, List.sum_cons]
      ring
    · rw [List.filter_cons_of_neg (by simp [h])]
      have hadd : (addReading row d).aceiteL2 = row.aceiteL2 := by
        by_cases h1 : d.line = 1 <;> simp [addReading, h, h1]
      rw [hadd]

theorem find?_name_eq_of_mem_nodup (rows : List WomackRow) (row : WomackRow)
    (hmem : row ∈ rows) (hnd : (rows.map (fun r => r.name)).Nodup) :
    rows.find? (fun r => decide (r.name = row.name)) = some row := by
  induction rows with
  | nil => cases hmem
  | cons r rs ih =>
    rw [List.map_cons] at hnd
    have hnd' := List.nodup_cons.mp hnd
    rcases List.mem_cons.mp hmem with rfl | hmem'
    · exact List.find?_cons_of_pos _ (by simp)
    · have hne : ¬ (r.name = row.name) := by
        intro hc
        exact hnd'.1 (by rw [hc]; exact List.mem_map.mpr ⟨row, hmem', rfl⟩)
      rw [List.find?_cons_of_neg _ (by simp [hne])]
      exact ih hmem' hnd'.2

theorem nodup_names_foldl_insertReading (l : List DailyReading) :
    ((l.foldl insertReading []).map (fun r => r.name)).Nodup := by
  have h := foldl_insertReading_names l []
  simp only [List.map_nil] at h
  rw [h]
  exact nodup_foldl_insKey _ [] List.nodup_nil

/-- C3: every emitted row's four values are sums over the matching input
records — records sharing the row's grouping label and line contribute
additively. -/
theorem womackChartData_sums (data : List DailyReading) (row : WomackRow)
    (hrow : row ∈ womackChartData data) :
    row.aguaL1 = ((data.filter (fun d =>
        decide (dateKey d.date = row.name ∧ d.line = 1))).map
        (fun d => d.waterConsumption)).sum ∧
    row.aguaL2 = ((data.filter (fun d =>
        decide (dateKey d.date = row.name ∧ d.line = 2))).map
        (fun d => d.waterConsumption)).sum ∧
    row.aceiteL1 = ((data.filter (fun d =>
        decide (dateKey d.date = row.name ∧ d.line = 1))).map
        (fun d => d.oilConsumptionTotal)).sum ∧
    row.aceiteL2 = ((data.filter (fun d =>
        decide (dateKey d.date = row.name ∧ d.line = 2))).map
        (fun d => d.oilConsumptionTotal)).sum := by
  have hperm : List.Perm
      (sortLt (fun a b : DailyReading => Date.ltb a.date b.date) data) data :=
    sortLt_perm _ _
  set s := sortLt (fun a b : DailyReading => Date.ltb a.date b.date) data with hs
  have hmemrows : row ∈ s.foldl insertReading [] := by
    have : womackChartData data = lastN 7 (s.foldl insertReading []) := rfl
    rw [this] at hrow
    exact List.drop_subset _ _ hrow
  have hfound : rowFor (s.foldl insertReading []) row.name = row := by
    unfold rowFor
    rw [find?_name_eq_of_mem_nodup _ row hmemrows
      (nodup_names_foldl_insertReading s)]
    rfl
  have hfold := rowFor_foldl s [] row.name
  rw [hfound] at hfold
  have hbase : rowFor [] row.name = emptyRow row.name := rfl
  rw [hbase] at hfold
  -- turn each field into a double filter, then a single conjunctive filter
  have hcomp : ∀ (ln : Nat) (f : DailyReading → Int),
      (((s.filter (fun d => decide (dateKey d.date = row.name))).filter
        (fun d => decide (d.line = ln))).map f).sum
      = ((data.filter (fun d =>
          decide (dateKey d.date = row.name ∧ d.line = ln))).map f).sum := by
    intro ln f
    rw [List.filter_filter]
    have hpred : (fun a : DailyReading =>
        decide (a.line = ln) && decide (dateKey a.date = row.name))
        = (fun d : DailyReading => decide (dateKey d.date = row.name ∧ d.line = ln)) := by
      funext d
      by_cases h1 : dateKey d.date = row.name <;> by_cases h2 : d.line = ln <;>
        simp [h1, h2]
    rw [hpred]
    exact List.Perm.sum_eq (List.Perm.map f (List.Perm.filter _ hperm))
  refine ⟨?_, ?_, ?_, ?_⟩
  · rw [← hcomp 1 (fun d => d.waterConsumption)]
    conv_lhs => rw [hfold]
    rw [foldl_addReading_aguaL1]
    simp [emptyRow]
  · rw [← hcomp 2 (fun d => d.waterConsumption)]
    conv_lhs => rw [hfold]
    rw [foldl_addReading_aguaL2]
    simp [emptyRow]
  · rw [← hcomp 1 (fun d => d.oilConsumptionTotal)]
    conv_lhs => rw [hfold]
    rw [foldl_addReading_aceiteL1]
    simp [emptyRow]
  · rw [← hcomp 2 (fun d => d.oilConsumptionTotal)]
    conv_lhs => rw [hfold]
    rw [foldl_addReading_aceiteL2]
    simp [emptyRow]

/-- The spec's worked example: two line-1 records on `2024-01-05` and one
line-2 record on `2024-01-06`. -/
def womackSumsData : List DailyReading :=
  [⟨⟨2024, 1, 5⟩, 1, 100, 40, 0⟩,
   ⟨⟨2024, 1, 5⟩, 1, 50, 10, 0⟩,
   ⟨⟨2024, 1, 6⟩, 2, 30, 5, 0⟩]

/-- The "5 ene" row the worked example produces. -/
def womackSumsRow : WomackRow := ⟨(5, 1), 150, 0, 50, 0⟩

/-- C3 witness: the "5 ene" row sums both same-date line-1 records. -/
theorem womackChartData_sums_witness :
    womackSumsRow.aguaL1 = ((womackSumsData.filter (fun d =>
        decide (dateKey d.date = womackSumsRow.name ∧ d.line = 1))).map
        (fun d => d.waterConsumption)).sum ∧
    womackSumsRow.aguaL2 = ((womackSumsData.filter (fun d =>
        decide (dateKey d.date = womackSumsRow.name ∧ d.line = 2))).map
        (fun d => d.waterConsumption)).sum ∧
    womackSumsRow.aceiteL1 = ((womackSumsData.filter (fun d =>
        decide (dateKey d.date = womackSumsRow.name ∧ d.line = 1))).map
        (fun d => d.oilConsumptionTotal)).sum ∧
    womackSumsRow.aceiteL2 = ((womackSumsData.filter (fun d =>
        decide (dateKey d.date = womackSumsRow.name ∧ d.line = 2))).map
        (fun d => d.oilConsumptionTotal)).sum :=
  womackChartData_sums womackSumsData womackSumsRow (by decide)

/-!
## Weekly latest-per-line comparison (`bodymakerChartData`)

The scan keeps, per line, the object entry `latestWeekData[line]`,
replacing it only when a record's `weekStartDate` is strictly greater.
-/

/-- One step of the latest-per-line scan: the entry for `d.line` is created
when absent and replaced only when `d` is strictly newer. -/
def updateLatest (acc : Nat → Option WeeklyReading) (d : WeeklyReading) :
    Nat → Option WeeklyReading :=
  fun ln =>
    if ln = d.line then
      match acc d.line with
      | none => some d
      | some cur =>
        if Date.ltb cur.weekStartDate d.weekStartDate then some d
        else some cur
    else acc ln

/-- The `latestWeekData` object after the left-to-right scan. -/
def latestWeekData (data : List WeeklyReading) : Nat → Option WeeklyReading :=
  data.foldl updateLatest (fun _ => none)

/-- The scan restricted to one line's records. -/
def selectStep (acc : Option WeeklyReading) (d : WeeklyReading) :
    Option WeeklyReading :=
  match acc with
  | none => some d
  | some cur =>
    if Date.ltb cur.weekStartDate d.weekStartDate then some d else some cur

/-- Merging a candidate into an already-selected maximum (ties keep the
candidate, which was seen earlier). -/
def mergeSel (cur : WeeklyReading) (o : Option WeeklyReading) :
    Option WeeklyReading :=
  match o with
  | none => some cur
  | some m =>
    if Date.ltb cur.weekStartDate m.weekStartDate then some m else some cur

theorem latestWeekData_eq_foldl (data : List WeeklyReading) :
    ∀ (F : Nat → Option WeeklyReading) (ln : Nat),
      (data.foldl updateLatest F) ln =
        (data.filter (fun d => decide (d.line = ln))).foldl selectStep (F ln) := by
  induction data with
  | nil => intro F ln; rfl
  | cons d t ih =>
    intro F ln
    rw [List.foldl_cons, ih]
    by_cases h : d.line = ln
    · rw [List.filter_cons_of_pos (by simp [h]), List.foldl_cons]
      have heq : (updateLatest F d) ln = selectStep (F ln) d := by
        unfold updateLatest selectStep
        rw [h, if_pos rfl]
      rw [heq]
    · rw [List.filter_cons_of_neg (by simp [h])]
      have heq : (updateLatest F d) ln = F ln := by
        unfold updateLatest
        rw [if_neg (fun hc => h hc.symm)]
      rw [heq]


theorem selectStep_none (d : WeeklyReading) : selectStep none d = some d := rfl

theorem selectStep_some (cur d : WeeklyReading) :
    selectStep (some cur) d =
      if Date.ltb cur.weekStartDate d.weekStartDate then some d else some cur :=
  rfl

theorem mergeSel_none (cur : WeeklyReading) : mergeSel cur none = some cur := rfl

theorem mergeSel_some (cur m : WeeklyReading) :
    mergeSel cur (some m) =
      if Date.ltb cur.weekStartDate m.weekStartDate then some m else some cur :=
  rfl

/-- Reference selection: the first record attaining the maximum
`weekStartDate` (an earlier-seen record wins a tie). -/
def firstMaxByWeek : List WeeklyReading → Option WeeklyReading
  | [] => none
  | d :: l => mergeSel d (firstMaxByWeek l)

theorem foldl_selectStep_some (l : List WeeklyReading) :
    ∀ cur : WeeklyReading,
      l.foldl selectStep (some cur) = mergeSel cur (firstMaxByWeek l) := by
  induction l with
  | nil => intro cur; rfl
  | cons d t ih =>
    intro cur
    rw [List.foldl_cons, selectStep_some]
    have hsplit : (if Date.ltb cur.weekStartDate d.weekStartDate then some d
        else some cur) =
        some (if Date.ltb cur.weekStartDate d.weekStartDate then d else cur) := by
      by_cases h : Date.ltb cur.weekStartDate d.weekStartDate = true
      · rw [if_pos h, if_pos h]
      · rw [if_neg h, if_neg h]
    rw [hsplit, ih]
    show _ = mergeSel cur (mergeSel d (firstMaxByWeek t))
    cases hm : firstMaxByWeek t with
    | none =>
      simp only [mergeSel_none, mergeSel_some]
      by_cases hcd : Date.ltb cur.weekStartDate d.weekStartDate = true
      · simp [hcd]
      · simp [hcd]
    | some m =>
      simp only [mergeSel_some]
      by_cases hcd : Date.ltb cur.weekStartDate d.weekStartDate = true
      · by_cases hdm : Date.ltb d.weekStartDate m.weekStartDate = true
        · simp [hcd, hdm, Date.ltb_trans hcd hdm, mergeSel_some]
        · simp [hcd, hdm, mergeSel_some]
      · by_cases hdm : Date.ltb d.weekStartDate m.weekStartDate = true
        · simp [hcd, hdm, mergeSel_some]
        · have hdm' : Date.ltb d.weekStartDate m.weekStartDate = false := by
            rw [Bool.not_eq_true] at hdm; exact hdm
          have hcm : Date.ltb cur.weekStartDate m.weekStartDate = false := by
            cases hcmv : Date.ltb cur.weekStartDate m.weekStartDate with
            | false => rfl
            | true => exact absurd (Date.ltb_of_ltb_of_not_ltb hcmv hdm') hcd
          simp [hcd, hdm, hcm, mergeSel_some]

theorem foldl_selectStep_none (l : List WeeklyReading) :
    l.foldl selectStep none = firstMaxByWeek l := by
  cases l with
  | nil => rfl
  | cons d t =>
    rw [List.foldl_cons, selectStep_none, foldl_selectStep_some]
    rfl

theorem firstMaxByWeek_eq_none (l : List WeeklyReading) :
    firstMaxByWeek l = none ↔ l = [] := by
  cases l with
  | nil => simp [firstMaxByWeek]
  | cons d t =>
    simp only [firstMaxByWeek]
    cases firstMaxByWeek t with
    | none => simp [mergeSel_none]
    | some m =>
      rw [mergeSel_some]
      by_cases h : Date.ltb d.weekStartDate m.weekStartDate = true <;> simp [h]

/-- `firstMaxByWeek` really picks the first maximum: everything before the
selected record is strictly older, nothing after is strictly newer. -/
theorem firstMaxByWeek_spec (l : List WeeklyReading) :
    ∀ r : WeeklyReading, firstMaxByWeek l = some r →
      ∃ pre post, l = pre ++ r :: post ∧
        (∀ s ∈ pre, Date.ltb s.weekStartDate r.weekStartDate = true) ∧
        (∀ s ∈ post, Date.ltb r.weekStartDate s.weekStartDate = false) := by
  induction l with
  | nil => intro r h; cases h
  | cons d t ih =>
    intro r h
    rw [show firstMaxByWeek (d :: t) = mergeSel d (firstMaxByWeek t) from rfl]
      at h
    cases hm : firstMaxByWeek t with
    | none =>
      rw [hm, mergeSel_none] at h
      have hdr : d = r := by injection h
      subst hdr
      have ht : t = [] := (firstMaxByWeek_eq_none t).mp hm
      subst ht
      exact ⟨[], [], rfl, by simp, by simp⟩
    | some m =>
      rw [hm, mergeSel_some] at h
      by_cases hdm : Date.ltb d.weekStartDate m.weekStartDate = true
      · rw [if_pos hdm] at h
        have hmr : m = r := by injection h
        subst hmr
        obtain ⟨pre, post, hteq, hpre, hpost⟩ := ih m hm
        refine ⟨d :: pre, post, by rw [hteq, List.cons_append], ?_, hpost⟩
        intro s hs
        rcases List.mem_cons.mp hs with rfl | hs'
        · exact hdm
        · exact hpre s hs'
      · rw [if_neg hdm] at h
        have hdr : d = r := by injection h
        subst hdr
        obtain ⟨pre, post, hteq, hpre, hpost⟩ := ih m hm
        refine ⟨[], t, rfl, by simp, ?_⟩
        intro s hs
        have hdm' : Date.ltb d.weekStartDate m.weekStartDate = false := by
          rw [Bool.not_eq_true] at hdm; exact hdm
        rw [hteq] at hs
        rcases List.mem_append.mp hs with hs' | hs'
        · cases hv : Date.ltb d.weekStartDate s.weekStartDate with
          | false => rfl
          | true =>
            exact absurd (Date.ltb_trans hv (hpre s hs')) (by simp [hdm'])
        · rcases List.mem_cons.mp hs' with rfl | hs''
          · exact hdm'
          · cases hv : Date.ltb d.weekStartDate s.weekStartDate with
            | false => rfl
            | true =>
              exact absurd (Date.ltb_of_ltb_of_not_ltb hv (hpost s hs''))
                (by simp [hdm'])

/-- C2 (amended): for each line, the weekly comparison selects the first
record (in scan order) among those attaining the maximum `weekStartDate`:
every earlier same-line record is strictly older and no later same-line
record is strictly newer. -/
theorem latestWeekData_first_max (data : List WeeklyReading) (ln : Nat) :
    latestWeekData data ln =
      firstMaxByWeek (data.filter (fun d => decide (d.line = ln))) ∧
    ∀ r, latestWeekData data ln = some r →
      r.line = ln ∧
      ∃ pre post,
        data.filter (fun d => decide (d.line = ln)) = pre ++ r :: post ∧
        (∀ s ∈ pre, Date.ltb s.weekStartDate r.weekStartDate = true) ∧
        (∀ s ∈ post, Date.ltb r.weekStartDate s.weekStartDate = false) := by
  have h1 : latestWeekData data ln =
      firstMaxByWeek (data.filter (fun d => decide (d.line = ln))) := by
    unfold latestWeekData
    rw [latestWeekData_eq_foldl data (fun _ => none) ln]
    exact foldl_selectStep_none _
  refine ⟨h1, ?_⟩
  intro r hr
  rw [h1] at hr
  obtain ⟨pre, post, heq, hpre, hpost⟩ := firstMaxByWeek_spec _ r hr
  have hrmem : r ∈ data.filter (fun d => decide (d.line = ln)) := by
    rw [heq]
    exact List.mem_append.mpr (Or.inr (List.mem_cons_self r post))
  have hline : r.line = ln := of_decide_eq_true (List.mem_filter.mp hrmem).2
  exact ⟨hline, pre, post, heq, hpre, hpost⟩

/-- The earlier of two tied line-1 records. -/
def bmTieFirst : WeeklyReading := ⟨⟨2024, 1, 1⟩, 1, [⟨11, 5⟩]⟩

/-- The later of two tied line-1 records (different readings). -/
def bmTieLast : WeeklyReading := ⟨⟨2024, 1, 1⟩, 1, [⟨11, 9⟩]⟩

/-- C2 counterexample: two line-1 records share the identical maximum
`weekStartDate`, and the scan keeps the first-seen record, not the last
such record seen. -/
theorem latestWeekData_tie_cex :
    bmTieFirst.weekStartDate = bmTieLast.weekStartDate ∧
    bmTieFirst.line = 1 ∧ bmTieLast.line = 1 ∧ bmTieFirst ≠ bmTieLast ∧
    latestWeekData [bmTieFirst, bmTieLast] 1 = some bmTieFirst ∧
    ¬ latestWeekData [bmTieFirst, bmTieLast] 1 = some bmTieLast := by
  refine ⟨rfl, rfl, rfl, by decide, rfl, by decide⟩

/-- The selected record's readings for one line
(`latestWeekData[line]?.readings || []`). -/
def lineReadings (data : List WeeklyReading) (ln : Nat) : List Reading :=
  ((latestWeekData data ln).map (fun w => w.readings)).getD []

/-- One bar of the Bodymaker chart; its `name` label "BM <id>" is embedded
as the machine id itself. -/
structure BMRow where
  machineId : Nat
  consumoL1 : Int
  consumoL2 : Int
deriving DecidableEq, Repr

/-- The union of the two selected records' machine ids:
`[...new Set([...ids1, ...ids2])].sort((a, b) => a - b)`. -/
def allMachinesOf (data : List WeeklyReading) : List Nat :=
  sortLt (fun a b : Nat => decide (a < b))
    (firstDedup ((lineReadings data 1).map (fun r => r.machineId) ++
      (lineReadings data 2).map (fun r => r.machineId)))

/-- The weekly chart transform: one row per machine in the sorted union,
with `find(...)?.consumption || 0` per line. -/
def bodymakerChartData (data : List WeeklyReading) : List BMRow :=
  (allMachinesOf data).map (fun machineId =>
    { machineId := machineId
    , consumoL1 := (((lineReadings data 1).find?
        (fun r => decide (r.machineId = machineId))).map
        (fun r => r.consumption)).getD 0
    , consumoL2 := (((lineReadings data 2).find?
        (fun r => decide (r.machineId = machineId))).map
        (fun r => r.consumption)).getD 0 })

theorem pairwise_lt_of_le_nodup_nat (l : List Nat)
    (hle : l.Pairwise (fun a b => decide (b < a) = false)) (hnd : l.Nodup) :
    l.Pairwise (fun a b => a < b) := by
  induction l with
  | nil => exact List.Pairwise.nil
  | cons x t ih =>
    rcases List.pairwise_cons.mp hle with ⟨hx, ht⟩
    rcases List.nodup_cons.mp hnd with ⟨hxm, hnd'⟩
    refine List.pairwise_cons.mpr ⟨?_, ih ht hnd'⟩
    intro y hy
    have h1 : ¬ (y < x) := by simpa using hx y hy
    have h2 : x ≠ y := fun hc => hxm (by rw [hc]; exact hy)
    omega

/-- C4: the emitted machine-id list is the strictly ascending union of the
machine ids of the two selected records' readings, and a machine absent
from a line's selected readings is charted as 0 for that line. -/
theorem bodymakerChartData_machines (data : List WeeklyReading) :
    ((bodymakerChartData data).map (fun row => row.machineId)).Pairwise
      (fun a b => a < b) ∧
    (∀ m : Nat, m ∈ (bodymakerChartData data).map (fun row => row.machineId) ↔
      (m ∈ (lineReadings data 1).map (fun r => r.machineId) ∨
       m ∈ (lineReadings data 2).map (fun r => r.machineId))) ∧
    (∀ row ∈ bodymakerChartData data,
      (row.machineId ∉ (lineReadings data 1).map (fun r => r.machineId) →
        row.consumoL1 = 0) ∧
      (row.machineId ∉ (lineReadings data 2).map (fun r => r.machineId) →
        row.consumoL2 = 0)) := by
  have hmap : (bodymakerChartData data).map (fun row => row.machineId)
      = allMachinesOf data := by
    unfold bodymakerChartData
    rw [List.map_map]
    exact List.map_id _
  refine ⟨?_, ?_, ?_⟩
  · rw [hmap]
    unfold allMachinesOf
    refine pairwise_lt_of_le_nodup_nat _ ?_ ?_
    · exact sortLt_pairwise (fun a b : Nat => decide (a < b))
        (fun a b h => by simp at h ⊢; omega)
        (fun a b c h1 h2 => by simp at h1 h2 ⊢; omega) _
    · exact (sortLt_perm _ _).nodup_iff.mpr (nodup_firstDedup _)
  · intro m
    rw [hmap]
    unfold allMachinesOf
    rw [mem_sortLt, mem_firstDedup, List.mem_append]
  · intro row hrow
    obtain ⟨mid, hmid, rfl⟩ := List.mem_map.mp hrow
    constructor
    · intro habs
      have hfind : (lineReadings data 1).find?
          (fun r => decide (r.machineId = mid)) = none := by
        rw [List.find?_eq_none]
        intro r hr hpred
        exact habs (by
          rw [← of_decide_eq_true hpred]
          exact List.mem_map.mpr ⟨r, hr, rfl⟩)
      simp [hfind]
    · intro habs
      have hfind : (lineReadings data 2).find?
          (fun r => decide (r.machineId = mid)) = none := by
        rw [List.find?_eq_none]
        intro r hr hpred
        exact habs (by
          rw [← of_decide_eq_true hpred]
          exact List.mem_map.mpr ⟨r, hr, rfl⟩)
      simp [hfind]

/-!
## Record submission

The two `handleSubmit` handlers, modelled as pure functions from the form
state to either the inline validation-failure message (in which case no
write happens) or the document passed to `addDoc`.  A blank text input is
`none`; `Number('')` is 0, and `Number` of a numeric string is its value.
-/

/-- JS `Number(value)` for a (possibly blank) numeric input. -/
def jsNumber : Option Int → Int
  | none => 0
  | some v => v

/-- `WomackControl.handleSubmit`: reject when any of the five fields is
falsy (a blank string; line 0), otherwise write the coerced document. -/
def womackHandleSubmit (date : Option Date) (line : Nat)
    (water oilTotal oilPartial : Option Int) : Except String DailyReading :=
  if date.isNone || line == 0 || water.isNone || oilTotal.isNone
      || oilPartial.isNone then
    Except.error "Error: Todos los campos son obligatorios."
  else
    Except.ok
      { date := date.getD ⟨0, 0, 0⟩
      , line := line
      , waterConsumption := jsNumber water
      , oilConsumptionTotal := jsNumber oilTotal
      , oilConsumptionPartial := jsNumber oilPartial }

/-- C6: the daily submission is rejected with the validation message
exactly when one of the five fields is missing or empty, and an accepted
write carries precisely the five submitted values. -/
theorem womackHandleSubmit_validation (date : Option Date) (line : Nat)
    (water oilTotal oilPartial : Option Int) :
    (womackHandleSubmit date line water oilTotal oilPartial =
        Except.error "Error: Todos los campos son obligatorios." ↔
      (date = none ∨ line = 0 ∨ water = none ∨ oilTotal = none ∨
        oilPartial = none)) ∧
    (∀ rec, womackHandleSubmit date line water oilTotal oilPartial =
        Except.ok rec →
      date = some rec.date ∧ rec.line = line ∧ line ≠ 0 ∧
      water = some rec.waterConsumption ∧
      oilTotal = some rec.oilConsumptionTotal ∧
      oilPartial = some rec.oilConsumptionPartial) := by
  have hcond : (date.isNone || line == 0 || water.isNone || oilTotal.isNone
      || oilPartial.isNone) = true ↔
      (date = none ∨ line = 0 ∨ water = none ∨ oilTotal = none ∨
        oilPartial = none) := by
    simp [Option.isNone_iff_eq_none]
    tauto
  constructor
  · constructor
    · intro h
      by_cases hc : (date.isNone || line == 0 || water.isNone
          || oilTotal.isNone || oilPartial.isNone) = true
      · exact hcond.mp hc
      · exfalso
        unfold womackHandleSubmit at h
        rw [if_neg hc] at h
        cases h
    · intro h
      unfold womackHandleSubmit
      rw [if_pos (hcond.mpr h)]
  · intro rec hrec
    unfold womackHandleSubmit at hrec
    by_cases hc : (date.isNone || line == 0 || water.isNone
        || oilTotal.isNone || oilPartial.isNone) = true
    · rw [if_pos hc] at hrec; cases hrec
    · rw [if_neg hc] at hrec
      injection hrec with hrec'
      subst hrec'
      rw [hcond] at hc
      push_neg at hc
      obtain ⟨hd, hl, hw, hot, hop⟩ := hc
      cases date with
      | none => exact absurd rfl hd
      | some dt =>
        cases water with
        | none => exact absurd rfl hw
        | some w =>
          cases oilTotal with
          | none => exact absurd rfl hot
          | some ot =>
            cases oilPartial with
            | none => exact absurd rfl hop
            | some op => exact ⟨rfl, rfl, hl, rfl, rfl, rfl⟩

/-- The mapped and filtered weekly readings: blank or non-positive entries
(`Number('') = 0`) are dropped. -/
def submittedReadings (consumptions : List (Nat × Option Int)) : List Reading :=
  (consumptions.map (fun p => Reading.mk p.1 (jsNumber p.2))).filter
    (fun r => decide (0 < r.consumption))

/-- `BodymakerControl.handleSubmit`: map and filter the consumptions
object, reject when the week is missing or nothing remains, otherwise
write the document. -/
def bodymakerHandleSubmit (week : Option Date) (line : Nat)
    (consumptions : List (Nat × Option Int)) : Except String WeeklyReading :=
  if week.isNone || (submittedReadings consumptions).isEmpty then
    Except.error
      "Error: Debes seleccionar una semana e introducir al menos un consumo."
  else
    Except.ok { weekStartDate := week.getD ⟨0, 0, 0⟩, line := line,
                readings := submittedReadings consumptions }

theorem submittedReadings_eq_nil (cons : List (Nat × Option Int)) :
    submittedReadings cons = [] ↔ ∀ p ∈ cons, jsNumber p.2 ≤ 0 := by
  unfold submittedReadings
  rw [List.filter_eq_nil_iff]
  constructor
  · intro h p hp
    have := h (Reading.mk p.1 (jsNumber p.2)) (List.mem_map.mpr ⟨p, hp, rfl⟩)
    simp at this
    omega
  · intro h r hr
    obtain ⟨p, hp, rfl⟩ := List.mem_map.mp hr
    have := h p hp
    simp
    omega

/-- Inversion of an accepted weekly submission: the written record carries
the submitted line and exactly the filtered, mapped readings, all of them
strictly positive. -/
theorem bodymakerHandleSubmit_ok (week : Option Date) (line : Nat)
    (cons : List (Nat × Option Int)) (rec : WeeklyReading)
    (hrec : bodymakerHandleSubmit week line cons = Except.ok rec) :
    rec.line = line ∧ rec.readings = submittedReadings cons ∧
    ∀ r ∈ rec.readings, 0 < r.consumption := by
  unfold bodymakerHandleSubmit at hrec
  by_cases hc : (week.isNone || (submittedReadings cons).isEmpty) = true
  · rw [if_pos hc] at hrec; cases hrec
  · rw [if_neg hc] at hrec
    injection hrec with hrec'
    subst hrec'
    refine ⟨rfl, rfl, ?_⟩
    intro r hr
    have := (List.mem_filter.mp hr).2
    simpa using this

/-- C5: blank or non-positive entries are excluded; the weekly submission
is rejected with the validation message exactly when the week is missing
or every entry is blank or non-positive, and an accepted write's
`readings` field is exactly the filtered, mapped entry set. -/
theorem bodymakerHandleSubmit_validation (week : Option Date) (line : Nat)
    (cons : List (Nat × Option Int)) :
    ((week = none ∨ ∀ p ∈ cons, jsNumber p.2 ≤ 0) →
      bodymakerHandleSubmit week line cons =
        Except.error
          "Error: Debes seleccionar una semana e introducir al menos un consumo.") ∧
    (∀ w, week = some w → (∃ p ∈ cons, 0 < jsNumber p.2) →
      bodymakerHandleSubmit week line cons =
        Except.ok { weekStartDate := w, line := line,
                    readings := submittedReadings cons }) ∧
    (∀ rec, bodymakerHandleSubmit week line cons = Except.ok rec →
      rec.readings = submittedReadings cons ∧
      ∀ r ∈ rec.readings, 0 < r.consumption) := by
  refine ⟨?_, ?_, ?_⟩
  · intro h
    unfold bodymakerHandleSubmit
    have hc : (week.isNone || (submittedReadings cons).isEmpty) = true := by
      rcases h with h | h
      · simp [h]
      · simp [List.isEmpty_iff, (submittedReadings_eq_nil cons).mpr h]
    rw [if_pos hc]
  · intro w hw hex
    subst hw
    obtain ⟨p, hp, hpos⟩ := hex
    have hmem : Reading.mk p.1 (jsNumber p.2) ∈ submittedReadings cons := by
      unfold submittedReadings
      rw [List.mem_filter]
      exact ⟨List.mem_map.mpr ⟨p, hp, rfl⟩, by simpa using hpos⟩
    have hc : (Option.isNone (some w) || (submittedReadings cons).isEmpty)
        = false := by
      cases hsr : submittedReadings cons with
      | nil => rw [hsr] at hmem; cases hmem
      | cons a t => rfl
    unfold bodymakerHandleSubmit
    rw [if_neg (by rw [hc]; exact Bool.false_ne_true)]
    rfl
  · intro rec hrec
    exact ⟨(bodymakerHandleSubmit_ok week line cons rec hrec).2.1,
      (bodymakerHandleSubmit_ok week line cons rec hrec).2.2⟩

/-- The per-line machine list: `11 + i` for line 1, `21 + i` otherwise. -/
def machines (line : Nat) : List Nat :=
  if line = 1 then (List.range 8).map (fun i => 11 + i)
  else (List.range 8).map (fun i => 21 + i)

/-- The weekly form submission: the consumptions object holds one
(possibly blank) entry per machine of the selected line, in machine
order. -/
def bodymakerSubmitForm (week : Option Date) (line : Nat)
    (vals : Nat → Option Int) : Except String WeeklyReading :=
  bodymakerHandleSubmit week line ((machines line).map (fun m => (m, vals m)))

/-- C7: a weekly reading accepted by the submission path has all machine
ids within the selected line's range ({11..18} for line 1, {21..28} for
line 2) and strictly positive consumptions. -/
theorem bodymakerSubmitForm_invariant (week : Option Date) (line : Nat)
    (vals : Nat → Option Int) (rec : WeeklyReading)
    (hok : bodymakerSubmitForm week line vals = Except.ok rec) :
    (rec.line = 1 → ∀ r ∈ rec.readings, 11 ≤ r.machineId ∧ r.machineId ≤ 18) ∧
    (rec.line = 2 → ∀ r ∈ rec.readings, 21 ≤ r.machineId ∧ r.machineId ≤ 28) ∧
    (∀ r ∈ rec.readings, 0 < r.consumption) := by
  obtain ⟨hline, hreads, hpos⟩ :=
    bodymakerHandleSubmit_ok week line
      ((machines line).map (fun m => (m, vals m))) rec hok
  have hmach : ∀ r ∈ rec.readings, r.machineId ∈ machines line := by
    intro r hr
    rw [hreads] at hr
    unfold submittedReadings at hr
    have hr' := (List.mem_filter.mp hr).1
    obtain ⟨p, hp, rfl⟩ := List.mem_map.mp hr'
    obtain ⟨m, hm, rfl⟩ := List.mem_map.mp hp
    exact hm
  refine ⟨?_, ?_, hpos⟩
  · intro h1 r hr
    have := hmach r hr
    rw [hline] at h1
    rw [h1] at this
    unfold machines at this
    rw [if_pos rfl] at this
    obtain ⟨i, hi, heq⟩ := List.mem_map.mp this
    have : i < 8 := List.mem_range.mp hi
    omega
  · intro h2 r hr
    have hmem := hmach r hr
    rw [hline] at h2
    rw [h2] at hmem
    unfold machines at hmem
    rw [if_neg (by omega)] at hmem
    obtain ⟨i, hi, heq⟩ := List.mem_map.mp hmem
    have : i < 8 := List.mem_range.mp hi
    omega

/-- A concrete weekly form state: machine 11 gets 5 litres, the rest are
blank. -/
def bmFormVals : Nat → Option Int := fun m => if m = 11 then some 5 else none

/-- The record that submission produces for `bmFormVals`. -/
def bmFormRecord : WeeklyReading := ⟨⟨2024, 1, 6⟩, 1, [⟨11, 5⟩]⟩

/-- C7 witness: the invariant theorem applied to a concrete accepted
submission. -/
theorem bodymakerSubmitForm_invariant_witness :
    (bmFormRecord.line = 1 → ∀ r ∈ bmFormRecord.readings,
      11 ≤ r.machineId ∧ r.machineId ≤ 18) ∧
    (bmFormRecord.line = 2 → ∀ r ∈ bmFormRecord.readings,
      21 ≤ r.machineId ∧ r.machineId ≤ 28) ∧
    (∀ r ∈ bmFormRecord.readings, 0 < r.consumption) :=
  bodymakerSubmitForm_invariant (some ⟨2024, 1, 6⟩) 1 bmFormVals bmFormRecord
    rfl

/-!
## Identity bootstrap (`useFirebaseAuth`)

The `onAuthStateChanged` callback, modelled as the ordered list of effects
one invocation performs.  `setMessage` is the only user-visible effect
constructor in the model; the auth callback never emits it — its failure
handling goes to `console.error` only.
-/

/-- An effect the auth-bootstrap callback can perform. -/
inductive AuthEffect where
  | setUser (uid : String)
  | signInWithCustomToken (succeeded : Bool)
  | signInAnonymously
  | consoleError (msg : String)
  | setMessage (msg : String)
  | setAuthReady
deriving DecidableEq, Repr

/-- The `onAuthStateChanged` callback body: reuse a current user, else
exchange the bootstrap token, falling back to an anonymous sign-in when
the exchange fails, else sign in anonymously; `setIsAuthReady(true)` runs
last in every path. -/
def onAuthCallback (currentUser : Option String)
    (initialAuthToken : Option String) (tokenSignInFails : Bool) :
    List AuthEffect :=
  (match currentUser with
   | some uid => [AuthEffect.setUser uid]
   | none =>
     match initialAuthToken with
     | some _ =>
       if tokenSignInFails then
         [AuthEffect.signInWithCustomToken false,
          AuthEffect.consoleError "Error signing in with custom token:",
          AuthEffect.signInAnonymously]
       else
         [AuthEffect.signInWithCustomToken true]
     | none => [AuthEffect.signInAnonymously]) ++ [AuthEffect.setAuthReady]

/-- Does the effect establish a session: an authenticated user (reused or
via a successful token exchange) or an anonymous session? -/
def establishesSession : AuthEffect → Bool
  | AuthEffect.setUser _ => true
  | AuthEffect.signInWithCustomToken ok => ok
  | AuthEffect.signInAnonymously => true
  | _ => false

/-- Is the effect surfaced to the end user? -/
def isUserVisible : AuthEffect → Bool
  | AuthEffect.setMessage _ => true
  | _ => false

/-- C8: every bootstrap path performs exactly one session-establishing
effect, signals readiness exactly once and as the last effect (so only
after the session is established), surfaces nothing to the user, and a
failed token exchange with no prior session establishes an anonymous
session. -/
theorem onAuthCallback_bootstrap (currentUser initialAuthToken : Option String)
    (tokenSignInFails : Bool) :
    ((onAuthCallback currentUser initialAuthToken tokenSignInFails).filter
      establishesSession).length = 1 ∧
    (onAuthCallback currentUser initialAuthToken tokenSignInFails).getLast? =
      some AuthEffect.setAuthReady ∧
    ((onAuthCallback currentUser initialAuthToken tokenSignInFails).filter
      (fun e => decide (e = AuthEffect.setAuthReady))).length = 1 ∧
    ((onAuthCallback currentUser initialAuthToken tokenSignInFails).filter
      isUserVisible) = [] ∧
    (currentUser = none → initialAuthToken.isSome = true →
      tokenSignInFails = true →
      (onAuthCallback currentUser initialAuthToken tokenSignInFails).filter
        establishesSession = [AuthEffect.signInAnonymously]) := by
  rcases currentUser with _ | uid <;> rcases initialAuthToken with _ | tok <;>
    cases tokenSignInFails <;>
      simp [onAuthCallback, establishesSession, isUserVisible]

/-- A line-1 reading on `2024-01-05`. -/
def janFive2024 : DailyReading := ⟨⟨2024, 1, 5⟩, 1, 100, 40, 0⟩

/-- A line-1 reading on `2025-01-05`: same day and month, another year. -/
def janFive2025 : DailyReading := ⟨⟨2025, 1, 5⟩, 1, 50, 10, 0⟩

/-- C10: the grouping label omits the year, so `2024-01-05` and
`2025-01-05` — distinct calendar dates with equal labels — are merged into
one row whose sums combine both records, counting as a single distinct
label toward the 7-row window. -/
theorem womackChartData_year_collision :
    janFive2024.date ≠ janFive2025.date ∧
    dateKey janFive2024.date = dateKey janFive2025.date ∧
    womackChartData [janFive2024, janFive2025] =
      [{ name := (5, 1), aguaL1 := 150, aguaL2 := 0,
         aceiteL1 := 50, aceiteL2 := 0 }] := by
  refine ⟨by decide, rfl, by decide⟩
